import Mathlib

set_option maxRecDepth 100000

/-!
Verification of two Python source-text patcher scripts
(`fix-bot-tabs.py` and `fix-single-tab.py`).

Both scripts read a JavaScript file as a string, locate a function body
between marker strings (`str.find` with fallback markers), apply literal
`str.replace` substitutions inside that region only, optionally excise
marker-delimited spans, and write `prefix ++ region ++ suffix` back.

The embedding models Python strings as `List Char` (Python strings are
sequences of Unicode code points, as are Lean `String.toList` values).
`str.find` returns an `Int` (`-1` for "not found"), matching the source's
sentinel convention; slices on the success path use `Int.toNat`.
-/

/-- Python `s.find(p)` restricted to a `Nat`-indexed result: the least index
at which `p` occurs as a prefix of the remaining list, or `none`. -/
def py_find_idx (s p : List Char) : Option Nat :=
  if p.isPrefixOf s then some 0
  else
    match s with
    | [] => none
    | _ :: t => (py_find_idx t p).map (· + 1)

/-- Python `s.find(p)`: first occurrence index, `-1` when absent. -/
def py_find (s p : List Char) : Int :=
  match py_find_idx s p with
  | some i => (i : Int)
  | none => -1

/-- Python `s.find(p, start)`: the search starts at `start`, a negative
`start` counts from the end (clamped at 0, as Python does). -/
def py_find_from (s p : List Char) (start : Int) : Int :=
  let st : Nat := if start < 0 then ((s.length : Int) + start).toNat else start.toNat
  match py_find_idx (s.drop st) p with
  | some i => ((st + i : Nat) : Int)
  | none => -1

/-- Python `s.count(p)`: number of non-overlapping occurrences, scanning left
to right and resuming after each match.  `s.count("")` is `len(s) + 1`. -/
def py_count_fuel (p : List Char) : Nat → List Char → Nat
  | _, [] => 0
  | 0, _ :: _ => 0
  | fuel + 1, a :: t =>
    if p.isPrefixOf (a :: t) then 1 + py_count_fuel p fuel ((a :: t).drop p.length)
    else py_count_fuel p fuel t

def py_count (s p : List Char) : Nat :=
  if p = [] then s.length + 1 else py_count_fuel p s.length s

/-- Python `s.replace(p, r)`: every non-overlapping occurrence of `p`
replaced by `r`, scanning left to right and resuming after the inserted
replacement.  For the empty pattern Python interleaves `r` at every
position, which the first branch reproduces. -/
def py_replace_fuel (p r : List Char) : Nat → List Char → List Char
  | _, [] => []
  | 0, s => s
  | fuel + 1, a :: t =>
    if p.isPrefixOf (a :: t) then r ++ py_replace_fuel p r fuel ((a :: t).drop p.length)
    else a :: py_replace_fuel p r fuel t

def py_replace (s p r : List Char) : List Char :=
  if p = [] then r ++ (s.map (fun c => c :: r)).flatten
  else py_replace_fuel p r s.length s

/-- Locator fallback used by both scripts for the start marker (and by
`fix-bot-tabs.py` for the end marker): `f = content.find(m1)`, and
`if f == -1: f = content.find(m2)`. -/
def find_fallback (c m1 m2 : List Char) : Int :=
  let f := py_find c m1
  if f = -1 then py_find c m2 else f

/-- Fallback search from an offset: `f = content.find(m1, st)`, and
`if f == -1: f = content.find(m2, st)`. -/
def find_from_fallback (c m1 m2 : List Char) (st : Int) : Int :=
  let f := py_find_from c m1 st
  if f = -1 then py_find_from c m2 st else f

/-- One pass of the replacement loop body:
`count = txt.count(old); if count > 0: txt = txt.replace(old, new)`.
The second component is the occurrence count the script reports. -/
def apply_rule (txt : List Char) (pr : List Char × List Char) : List Char × Nat :=
  let count := py_count txt pr.1
  (if 0 < count then py_replace txt pr.1 pr.2 else txt, count)

/-- The whole `for old, new in replacements:` loop. -/
def apply_replacements (rules : List (List Char × List Char)) (txt : List Char) : List Char :=
  rules.foldl (fun acc pr => (apply_rule acc pr).1) txt

/-- Reassembly `new_content = before_func + func_content + after_func`,
with `before_func = content[:fs]` and `after_func = content[fe:]`. -/
def reassemble (content : List Char) (fs fe : Nat) (func2 : List Char) : List Char :=
  content.take fs ++ func2 ++ content.drop fe

/-! Marker strings and replacement tables of `fix-bot-tabs.py`. -/

def bot_start1 : List Char :=
  "// Internal submission function (can retry if frame detaches)".toList

def bot_start2 : List Char :=
  "async function submitToSparxNowInternal(".toList

def bot_end1 : List Char :=
  "// API endpoints for Express server".toList

def bot_end2 : List Char :=
  "module.exports =".toList

def bot_replacements : List (List Char × List Char) :=
  [ ("await page.evaluate".toList, "await productPage.evaluate".toList),
    ("await page.goto".toList, "await productPage.goto".toList),
    ("await page.screenshot".toList, "await productPage.screenshot".toList),
    ("await page.waitForSelector".toList, "await productPage.waitForSelector".toList),
    ("await page.waitForFunction".toList, "await productPage.waitForFunction".toList),
    ("await page.keyboard".toList, "await productPage.keyboard".toList),
    ("await page.type".toList, "await productPage.type".toList),
    ("await page.click".toList, "await productPage.click".toList),
    ("await page.evaluateHandle".toList, "await productPage.evaluateHandle".toList),
    (" page.evaluate".toList, " productPage.evaluate".toList),
    (" page.goto".toList, " productPage.goto".toList),
    (" page.screenshot".toList, " productPage.screenshot".toList),
    (" page.waitForSelector".toList, " productPage.waitForSelector".toList),
    (" page.waitForFunction".toList, " productPage.waitForFunction".toList),
    (" page.keyboard".toList, " productPage.keyboard".toList),
    (" page.type".toList, " productPage.type".toList),
    (" page.click".toList, " productPage.click".toList),
    (" page.evaluateHandle".toList, " productPage.evaluateHandle".toList) ]

/-- Locator of `fix-bot-tabs.py`, start side (lines 16-18). -/
def bot_func_start (content : List Char) : Int :=
  find_fallback content bot_start1 bot_start2

/-- Locator of `fix-bot-tabs.py`, end side (lines 21-23): searched from
`func_start` (which, as in the source, may still be `-1` here). -/
def bot_func_end (content : List Char) (fs : Int) : Int :=
  find_from_fallback content bot_end1 bot_end2 fs

/-- Whole run of `fix-bot-tabs.py` on an input document: `none` paired with
exit code 1 when the locator fails (the script prints a diagnostic and calls
`exit(1)` before any write); otherwise the written content and exit code 0. -/
def bot_main (content : List Char) : Option (List Char) × Nat :=
  let fs := bot_func_start content
  let fe := bot_func_end content fs
  if fs = -1 ∨ fe = -1 then (none, 1)
  else
    let func_content := (content.take fe.toNat).drop fs.toNat
    let func2 := apply_replacements bot_replacements func_content
    (some (reassemble content fs.toNat fe.toNat func2), 0)

/-! Marker strings, table and excisions of `fix-single-tab.py`. -/

def single_end_marker : List Char := "module.exports =".toList

def single_replacements : List (List Char × List Char) :=
  [ ("productPage.evaluate".toList, "page.evaluate".toList),
    ("productPage.goto".toList, "page.goto".toList),
    ("productPage.screenshot".toList, "page.screenshot".toList),
    ("productPage.waitForSelector".toList, "page.waitForSelector".toList),
    ("productPage.waitForFunction".toList, "page.waitForFunction".toList),
    ("productPage.keyboard".toList, "page.keyboard".toList),
    ("productPage.type".toList, "page.type".toList),
    ("productPage.click".toList, "page.click".toList),
    ("productPage.evaluateHandle".toList, "page.evaluateHandle".toList) ]

def tab_sec_start : List Char :=
  "// Get or create the product-specific tab".toList

def tab_sec_end : List Char :=
  "console.log(`🔍 Navigating \"${productName}\" tab to channel...`);".toList

def wait_sec_start : List Char :=
  "// Wait for confirmation message".toList

def wait_sec_end : List Char :=
  "console.log('✅ Submission complete!".toList

def wait_anchor : List Char :=
  "'✅ Submission complete!".toList

def wait_insert : List Char :=
  "// No confirmation wait - submission complete immediately\n    console.log('✅ Submission complete!".toList

/-- Tab-section excision (`fix-single-tab.py` lines 51-63): if both span
markers are found, keep `func_content[:tab_section_start]` and
`func_content[tab_section_end:]`; otherwise do nothing. -/
def tab_excision (f : List Char) : List Char :=
  let ts := py_find f tab_sec_start
  let te := py_find f tab_sec_end
  if ts ≠ -1 ∧ te ≠ -1 then f.take ts.toNat ++ f.drop te.toNat
  else f

/-- Wait-section excision (`fix-single-tab.py` lines 65-77): if both span
markers are found, splice `func_content[:wait_section_start]`, a literal
insertion, and the tail of `after_wait` past the anchor occurrence. -/
def wait_excision (f : List Char) : List Char :=
  let ws := py_find f wait_sec_start
  let we := py_find f wait_sec_end
  if ws ≠ -1 ∧ we ≠ -1 then
    let after_wait := f.drop we.toNat
    f.take ws.toNat ++ wait_insert ++
      after_wait.drop (py_find after_wait wait_anchor + (wait_anchor.length : Int)).toNat
  else f

/-- The region pipeline of `fix-single-tab.py`: substitutions, then the tab
excision, then the wait excision. -/
def single_pipeline (func_content : List Char) : List Char :=
  wait_excision (tab_excision (apply_replacements single_replacements func_content))

/-- Locator of `fix-single-tab.py`, start side (lines 13-15). -/
def single_func_start (content : List Char) : Int :=
  find_fallback content bot_start1 bot_start2

/-- Locator of `fix-single-tab.py`, end side (line 18). -/
def single_func_end (content : List Char) (fs : Int) : Int :=
  py_find_from content single_end_marker fs

/-- Whole run of `fix-single-tab.py` on an input document. -/
def single_main (content : List Char) : Option (List Char) × Nat :=
  let fs := single_func_start content
  let fe := single_func_end content fs
  if fs = -1 ∨ fe = -1 then (none, 1)
  else
    let func_content := (content.take fe.toNat).drop fs.toNat
    let func2 := single_pipeline func_content
    (some (reassemble content fs.toNat fe.toNat func2), 0)

/-! Specification-side predicates used to state locator claims. -/

/-- Marker `p` occurs in `s` at offset `i`. -/
def occ_at (p s : List Char) (i : Nat) : Prop := p <+: s.drop i

/-- Offset `i` is the first occurrence of `p` in `s`. -/
def first_occ (p s : List Char) (i : Nat) : Prop :=
  occ_at p s i ∧ ∀ j < i, ¬ occ_at p s j

/-- Marker `p` occurs nowhere in `s`. -/
def no_occ (p s : List Char) : Prop := ∀ j, ¬ occ_at p s j

/-- Offset `i` is the first occurrence of `p` in `s` at or after `st`. -/
def first_occ_from (p s : List Char) (st i : Nat) : Prop :=
  st ≤ i ∧ occ_at p s i ∧ ∀ j, st ≤ j → j < i → ¬ occ_at p s j

/-- Marker `p` occurs nowhere in `s` at or after `st`. -/
def no_occ_from (p s : List Char) (st : Nat) : Prop :=
  ∀ j, st ≤ j → ¬ occ_at p s j

/-! Unfolding lemmas for the recursive primitives. -/

theorem py_count_fuel_congr (p : List Char) (hp : p ≠ []) :
    ∀ (n : Nat) (s : List Char) (m : Nat), s.length ≤ n → s.length ≤ m →
      py_count_fuel p n s = py_count_fuel p m s := by
  intro n
  induction n with
  | zero =>
    intro s m hn _
    have hnil : s = [] := List.length_eq_zero.mp (by omega)
    subst hnil
    cases m <;> rfl
  | succ n ih =>
    intro s m hn hm
    cases s with
    | nil => cases m <;> rfl
    | cons a t =>
      cases m with
      | zero => simp at hm
      | succ m' =>
        simp only [py_count_fuel]
        have hplen : 0 < p.length := List.length_pos.mpr hp
        have htn : t.length ≤ n := by simp at hn; omega
        have htm : t.length ≤ m' := by simp at hm; omega
        by_cases hb : p.isPrefixOf (a :: t)
        · simp only [hb, if_true]
          have hd : ((a :: t).drop p.length).length ≤ t.length := by
            simp [List.length_drop]
            omega
          rw [ih ((a :: t).drop p.length) m' (by omega) (by omega)]
        · simp only [hb, if_false]
          rw [ih t m' htn htm]
          simp

theorem py_replace_fuel_congr (p r : List Char) (hp : p ≠ []) :
    ∀ (n : Nat) (s : List Char) (m : Nat), s.length ≤ n → s.length ≤ m →
      py_replace_fuel p r n s = py_replace_fuel p r m s := by
  intro n
  induction n with
  | zero =>
    intro s m hn _
    have hnil : s = [] := List.length_eq_zero.mp (by omega)
    subst hnil
    cases m <;> rfl
  | succ n ih =>
    intro s m hn hm
    cases s with
    | nil => cases m <;> rfl
    | cons a t =>
      cases m with
      | zero => simp at hm
      | succ m' =>
        simp only [py_replace_fuel]
        have hplen : 0 < p.length := List.length_pos.mpr hp
        have htn : t.length ≤ n := by simp at hn; omega
        have htm : t.length ≤ m' := by simp at hm; omega
        by_cases hb : p.isPrefixOf (a :: t)
        · simp only [hb, if_true]
          have hd : ((a :: t).drop p.length).length ≤ t.length := by
            simp [List.length_drop]
            omega
          rw [ih ((a :: t).drop p.length) m' (by omega) (by omega)]
        · simp only [hb, if_false]
          rw [ih t m' htn htm]
          simp

theorem py_count_nil (p : List Char) (hp : p ≠ []) : py_count [] p = 0 := by
  rw [py_count, if_neg hp]
  rfl

theorem py_count_pos (s p : List Char) (hp : p ≠ []) (h : p <+: s) :
    py_count s p = 1 + py_count (s.drop p.length) p := by
  cases s with
  | nil => exact absurd (List.prefix_nil.mp h) hp
  | cons a t =>
    rw [py_count, if_neg hp, py_count, if_neg hp]
    have hplen : 0 < p.length := List.length_pos.mpr hp
    simp only [List.length_cons, py_count_fuel, List.isPrefixOf_iff_prefix.mpr h, if_true]
    have hd : ((a :: t).drop p.length).length ≤ t.length := by
      simp [List.length_drop]
      omega
    rw [py_count_fuel_congr p hp t.length ((a :: t).drop p.length)
      ((a :: t).drop p.length).length hd le_rfl]

theorem py_count_neg (a : Char) (t p : List Char) (h : ¬ p <+: (a :: t)) :
    py_count (a :: t) p = py_count t p := by
  have hp : p ≠ [] := by rintro rfl; exact h List.nil_prefix
  rw [py_count, if_neg hp, py_count, if_neg hp]
  have hb : p.isPrefixOf (a :: t) = false := by
    rw [← Bool.not_eq_true, List.isPrefixOf_iff_prefix]
    exact h
  simp only [List.length_cons, py_count_fuel, hb, if_false]
  simp

theorem py_replace_nil (p r : List Char) (hp : p ≠ []) : py_replace [] p r = [] := by
  rw [py_replace, if_neg hp]
  rfl

theorem py_replace_pos (s p r : List Char) (hp : p ≠ []) (h : p <+: s) :
    py_replace s p r = r ++ py_replace (s.drop p.length) p r := by
  cases s with
  | nil => exact absurd (List.prefix_nil.mp h) hp
  | cons a t =>
    rw [py_replace, if_neg hp, py_replace, if_neg hp]
    have hplen : 0 < p.length := List.length_pos.mpr hp
    simp only [List.length_cons, py_replace_fuel, List.isPrefixOf_iff_prefix.mpr h, if_true]
    have hd : ((a :: t).drop p.length).length ≤ t.length := by
      simp [List.length_drop]
      omega
    rw [py_replace_fuel_congr p r hp t.length ((a :: t).drop p.length)
      ((a :: t).drop p.length).length hd le_rfl]

theorem py_replace_neg (a : Char) (t p r : List Char) (h : ¬ p <+: (a :: t)) :
    py_replace (a :: t) p r = a :: py_replace t p r := by
  have hp : p ≠ [] := by rintro rfl; exact h List.nil_prefix
  rw [py_replace, if_neg hp, py_replace, if_neg hp]
  have hb : p.isPrefixOf (a :: t) = false := by
    rw [← Bool.not_eq_true, List.isPrefixOf_iff_prefix]
    exact h
  simp only [List.length_cons, py_replace_fuel, hb, if_false]
  simp

/-! Occurrence predicates: basic facts. -/

theorem occ_at_cons_succ (p : List Char) (a : Char) (t : List Char) (j : Nat) :
    occ_at p (a :: t) (j + 1) ↔ occ_at p t j := by
  simp [occ_at, List.drop_succ_cons]

theorem no_occ_cons (p : List Char) (a : Char) (t : List Char) :
    no_occ p (a :: t) ↔ ¬ p <+: (a :: t) ∧ no_occ p t := by
  constructor
  · intro h
    exact ⟨h 0, fun j => by have := h (j + 1); rwa [occ_at_cons_succ] at this⟩
  · rintro ⟨h0, h⟩ j
    match j with
    | 0 => exact h0
    | j + 1 => rw [occ_at_cons_succ]; exact h j

theorem first_occ_unique (p s : List Char) (i j : Nat)
    (hi : first_occ p s i) (hj : first_occ p s j) : i = j := by
  rcases Nat.lt_trichotomy i j with h | h | h
  · exact absurd hi.1 (hj.2 i h)
  · exact h
  · exact absurd hj.1 (hi.2 j h)

theorem occ_at_lt_length (p s : List Char) (i : Nat) (hp : p ≠ [])
    (h : occ_at p s i) : i < s.length := by
  by_contra hle
  push_neg at hle
  have hdrop : s.drop i = [] := List.drop_eq_nil_of_le hle
  rw [occ_at, hdrop, List.prefix_nil] at h
  exact hp h

/-! Correctness of `py_find_idx` against the occurrence predicates. -/

theorem py_find_idx_none_iff (s p : List Char) :
    py_find_idx s p = none ↔ no_occ p s := by
  induction s with
  | nil =>
    rw [py_find_idx]
    cases hb : p.isPrefixOf [] with
    | true =>
      rw [if_pos rfl]
      have hocc : occ_at p [] 0 := by
        simpa [occ_at] using List.isPrefixOf_iff_prefix.mp hb
      simp only [reduceCtorEq, false_iff]
      intro hno
      exact hno 0 hocc
    | false =>
      rw [if_neg (by simp)]
      have hnp : ¬ p <+: [] := by
        rw [← List.isPrefixOf_iff_prefix, hb]
        simp
      simp only [true_iff]
      intro j
      simpa [occ_at] using hnp
  | cons a t ih =>
    rw [py_find_idx]
    cases hb : p.isPrefixOf (a :: t) with
    | true =>
      rw [if_pos rfl]
      have hocc : occ_at p (a :: t) 0 := by
        simpa [occ_at] using List.isPrefixOf_iff_prefix.mp hb
      simp only [reduceCtorEq, false_iff]
      intro hno
      exact hno 0 hocc
    | false =>
      rw [if_neg (by simp)]
      have hnp : ¬ p <+: (a :: t) := by
        rw [← List.isPrefixOf_iff_prefix, hb]
        simp
      rw [Option.map_eq_none', ih, no_occ_cons]
      simp [hnp]

theorem py_find_idx_some_first (s p : List Char) (i : Nat)
    (h : py_find_idx s p = some i) : first_occ p s i := by
  induction s generalizing i with
  | nil =>
    rw [py_find_idx] at h
    cases hb : p.isPrefixOf [] with
    | true =>
      rw [if_pos hb, Option.some_inj] at h
      subst h
      refine ⟨?_, by omega⟩
      simpa [occ_at] using List.isPrefixOf_iff_prefix.mp hb
    | false =>
      rw [if_neg (by simp [hb])] at h
      exact absurd h (by simp)
  | cons a t ih =>
    rw [py_find_idx] at h
    cases hb : p.isPrefixOf (a :: t) with
    | true =>
      rw [if_pos hb, Option.some_inj] at h
      subst h
      refine ⟨?_, by omega⟩
      simpa [occ_at] using List.isPrefixOf_iff_prefix.mp hb
    | false =>
      rw [if_neg (by simp [hb]), Option.map_eq_some'] at h
      obtain ⟨i', hi', rfl⟩ := h
      have hnp : ¬ p <+: (a :: t) := by
        rw [← List.isPrefixOf_iff_prefix, hb]
        simp
      have hf := ih i' hi'
      refine ⟨(occ_at_cons_succ p a t i').mpr hf.1, ?_⟩
      intro j hj
      match j with
      | 0 => simpa [occ_at] using hnp
      | j + 1 =>
        rw [occ_at_cons_succ]
        exact hf.2 j (by omega)

theorem py_find_idx_some_of_first (s p : List Char) (i : Nat)
    (h : first_occ p s i) : py_find_idx s p = some i := by
  cases hf : py_find_idx s p with
  | none => exact absurd h.1 ((py_find_idx_none_iff s p).mp hf i)
  | some j =>
    have := py_find_idx_some_first s p j hf
    rw [first_occ_unique p s i j h this]

/-! Correctness of the Int-valued finds. -/

theorem py_find_spec (s p : List Char) :
    (py_find s p = -1 ∧ no_occ p s) ∨
    (∃ i : Nat, py_find s p = (i : Int) ∧ first_occ p s i) := by
  rw [py_find]
  cases hf : py_find_idx s p with
  | none => exact Or.inl ⟨rfl, (py_find_idx_none_iff s p).mp hf⟩
  | some i => exact Or.inr ⟨i, rfl, py_find_idx_some_first s p i hf⟩

theorem occ_at_drop (p s : List Char) (st i : Nat) :
    occ_at p (s.drop st) i ↔ occ_at p s (st + i) := by
  simp [occ_at, List.drop_drop]

theorem py_find_from_spec (s p : List Char) (st : Nat) :
    (py_find_from s p (st : Int) = -1 ∧ no_occ_from p s st) ∨
    (∃ i : Nat, py_find_from s p (st : Int) = (i : Int) ∧ first_occ_from p s st i) := by
  rw [py_find_from]
  have hst0 : (if (st : Int) < 0 then ((s.length : Int) + (st : Int)).toNat
      else (st : Int).toNat) = st := by
    rw [if_neg (by omega)]
    simp
  simp only [hst0]
  cases hf : py_find_idx (s.drop st) p with
  | none =>
    refine Or.inl ⟨rfl, ?_⟩
    have hno := (py_find_idx_none_iff (s.drop st) p).mp hf
    intro j hj hocc
    have : occ_at p (s.drop st) (j - st) := by
      rw [occ_at_drop]
      have : st + (j - st) = j := by omega
      rwa [this]
    exact hno (j - st) this
  | some i =>
    refine Or.inr ⟨st + i, rfl, ?_⟩
    have hfst := py_find_idx_some_first (s.drop st) p i hf
    refine ⟨by omega, (occ_at_drop p s st i).mp hfst.1, ?_⟩
    intro j hj1 hj2 hocc
    have : occ_at p (s.drop st) (j - st) := by
      rw [occ_at_drop]
      have : st + (j - st) = j := by omega
      rwa [this]
    exact hfst.2 (j - st) (by omega) this

theorem find_fallback_spec (c m1 m2 : List Char) :
    (find_fallback c m1 m2 = -1 ∧ no_occ m1 c ∧ no_occ m2 c) ∨
    (∃ i : Nat, find_fallback c m1 m2 = (i : Int) ∧
      (first_occ m1 c i ∨ (no_occ m1 c ∧ first_occ m2 c i))) := by
  rw [find_fallback]
  rcases py_find_spec c m1 with ⟨h1, hno1⟩ | ⟨i, h1, hf1⟩
  · rw [h1]
    simp only [if_pos rfl]
    rcases py_find_spec c m2 with ⟨h2, hno2⟩ | ⟨j, h2, hf2⟩
    · exact Or.inl ⟨h2, hno1, hno2⟩
    · exact Or.inr ⟨j, h2, Or.inr ⟨hno1, hf2⟩⟩
  · rw [h1]
    rw [if_neg (by omega)]
    exact Or.inr ⟨i, rfl, Or.inl hf1⟩

theorem find_from_fallback_spec (c m1 m2 : List Char) (st : Nat) :
    (find_from_fallback c m1 m2 (st : Int) = -1 ∧ no_occ_from m1 c st ∧ no_occ_from m2 c st) ∨
    (∃ i : Nat, find_from_fallback c m1 m2 (st : Int) = (i : Int) ∧
      (first_occ_from m1 c st i ∨ (no_occ_from m1 c st ∧ first_occ_from m2 c st i))) := by
  rw [find_from_fallback]
  rcases py_find_from_spec c m1 st with ⟨h1, hno1⟩ | ⟨i, h1, hf1⟩
  · rw [h1]
    simp only [if_pos rfl]
    rcases py_find_from_spec c m2 st with ⟨h2, hno2⟩ | ⟨j, h2, hf2⟩
    · exact Or.inl ⟨h2, hno1, hno2⟩
    · exact Or.inr ⟨j, h2, Or.inr ⟨hno1, hf2⟩⟩
  · rw [h1]
    rw [if_neg (by omega)]
    exact Or.inr ⟨i, rfl, Or.inl hf1⟩

/-- Claim C1: if no start marker is found, or no end marker is found for the
matched start, each script exits with status 1 and produces no output
content: the file is never written on the locator failure path. -/
theorem c1_locator_failure_no_write :
    ∀ content : List Char,
      ((bot_func_start content = -1 ∨ bot_func_end content (bot_func_start content) = -1) →
        bot_main content = (none, 1)) ∧
      ((single_func_start content = -1 ∨ single_func_end content (single_func_start content) = -1) →
        single_main content = (none, 1)) := by
  intro content
  constructor
  · intro h
    simp only [bot_main]
    rw [if_pos h]
  · intro h
    simp only [single_main]
    rw [if_pos h]

theorem c1_witness :
    bot_main [] = (none, 1) ∧ single_main [] = (none, 1) := by
  have h := c1_locator_failure_no_write []
  exact ⟨h.1 (by decide), h.2 (by decide)⟩

/-- Claim C2: the reassembled output is `document[:fs] ++ region ++ document[fe:]`;
its prefix of length `fs` equals the document's, its tail of length
`len(document) - fe` equals `document[fe:]`, and its length is
`fs + len(region) + (len(document) - fe)`: only the region between the two
located offsets may differ. -/
theorem c2_reassemble_frame :
    ∀ (doc func2 : List Char) (fs fe : Nat), fs ≤ doc.length → fe ≤ doc.length →
      reassemble doc fs fe func2 = doc.take fs ++ func2 ++ doc.drop fe ∧
      (reassemble doc fs fe func2).take fs = doc.take fs ∧
      (reassemble doc fs fe func2).length = fs + func2.length + (doc.length - fe) ∧
      (reassemble doc fs fe func2).drop
          ((reassemble doc fs fe func2).length - (doc.length - fe)) = doc.drop fe := by
  intro doc func2 fs fe hfs hfe
  have htk : (doc.take fs).length = fs := by
    simp [List.length_take]
    omega
  have hlen : (reassemble doc fs fe func2).length = fs + func2.length + (doc.length - fe) := by
    simp [reassemble, List.length_append, htk, List.length_drop]
    omega
  refine ⟨rfl, ?_, hlen, ?_⟩
  · have h1 : fs ≤ (List.take fs doc ++ func2).length := by
      simp only [List.length_append, htk]
      omega
    have h2 : fs ≤ (List.take fs doc).length := by rw [htk]
    rw [reassemble, List.take_append_of_le_length h1, List.take_append_of_le_length h2,
      List.take_take, Nat.min_self]
  · rw [hlen, reassemble]
    have harith : fs + func2.length + (doc.length - fe) - (doc.length - fe) =
        (doc.take fs ++ func2).length := by
      simp [List.length_append, htk]
    rw [harith, List.drop_left]

theorem c2_witness :
    reassemble "abcdef".toList 2 4 "XY".toList =
        "ab".toList ++ "XY".toList ++ "ef".toList ∧
      (reassemble "abcdef".toList 2 4 "XY".toList).take 2 = "abcdef".toList.take 2 ∧
      (reassemble "abcdef".toList 2 4 "XY".toList).length = 2 + 2 + (6 - 4) ∧
      (reassemble "abcdef".toList 2 4 "XY".toList).drop
          ((reassemble "abcdef".toList 2 4 "XY".toList).length - (6 - 4)) =
        "abcdef".toList.drop 4 := by
  have h := c2_reassemble_frame "abcdef".toList "XY".toList 2 4 (by decide) (by decide)
  simpa using h

/-! Helper facts for the offset invariant. -/

theorem occ_at_comparable (p q c : List Char) (i : Nat)
    (hp : occ_at p c i) (hq : occ_at q c i) : p <+: q ∨ q <+: p := by
  simp only [occ_at] at hp hq
  rcases Nat.le_total p.length q.length with h | h
  · exact Or.inl (List.prefix_of_prefix_length_le hp hq h)
  · exact Or.inr (List.prefix_of_prefix_length_le hq hp h)

theorem bot_markers_incomp (c : List Char) (i : Nat)
    (hs : occ_at bot_start1 c i ∨ occ_at bot_start2 c i)
    (he : occ_at bot_end1 c i ∨ occ_at bot_end2 c i) : False := by
  rcases hs with hs | hs <;> rcases he with he | he <;>
    rcases occ_at_comparable _ _ _ _ hs he with h | h <;> exact absurd h (by decide)

theorem single_markers_incomp (c : List Char) (i : Nat)
    (hs : occ_at bot_start1 c i ∨ occ_at bot_start2 c i)
    (he : occ_at single_end_marker c i) : False := by
  rcases hs with hs | hs <;>
    rcases occ_at_comparable _ _ _ _ hs he with h | h <;> exact absurd h (by decide)

theorem start_occ_of_fallback (c : List Char) (i : Nat)
    (h : first_occ bot_start1 c i ∨ (no_occ bot_start1 c ∧ first_occ bot_start2 c i)) :
    occ_at bot_start1 c i ∨ occ_at bot_start2 c i := by
  rcases h with h | ⟨_, h⟩
  · exact Or.inl h.1
  · exact Or.inr h.1

/-- Claim C8: whenever the locator succeeds (neither offset is the `-1`
sentinel), the offsets satisfy `0 <= start < end <= len(document)`, with
strict inequality between start and end. -/
theorem c8_offsets_invariant :
    ∀ (content : List Char) (fs fe : Int),
      (bot_func_start content = fs → bot_func_end content fs = fe →
        fs ≠ -1 → fe ≠ -1 →
        0 ≤ fs ∧ fs < fe ∧ fe ≤ (content.length : Int)) ∧
      (single_func_start content = fs → single_func_end content fs = fe →
        fs ≠ -1 → fe ≠ -1 →
        0 ≤ fs ∧ fs < fe ∧ fe ≤ (content.length : Int)) := by
  intro content fs fe
  constructor
  · intro hfs hfe hne1 hne2
    rw [bot_func_start] at hfs
    rcases find_fallback_spec content bot_start1 bot_start2 with ⟨h, _⟩ | ⟨i, h, hocc⟩
    · rw [hfs] at h
      exact absurd h hne1
    · rw [hfs] at h
      subst h
      rw [bot_func_end] at hfe
      rcases find_from_fallback_spec content bot_end1 bot_end2 i with ⟨h2, _⟩ | ⟨j, h2, hocce⟩
      · rw [hfe] at h2
        exact absurd h2 hne2
      · rw [hfe] at h2
        subst h2
        have hse : i ≤ j ∧ (occ_at bot_end1 content j ∨ occ_at bot_end2 content j) := by
          rcases hocce with h | ⟨_, h⟩
          · exact ⟨h.1, Or.inl h.2.1⟩
          · exact ⟨h.1, Or.inr h.2.1⟩
        have hjlen : j < content.length := by
          rcases hse.2 with h | h
          · exact occ_at_lt_length _ _ _ (by decide) h
          · exact occ_at_lt_length _ _ _ (by decide) h
        have hij : i ≠ j := by
          intro hij
          subst hij
          exact bot_markers_incomp content i (start_occ_of_fallback content i hocc) hse.2
        have := hse.1
        refine ⟨by omega, by omega, by omega⟩
  · intro hfs hfe hne1 hne2
    rw [single_func_start] at hfs
    rcases find_fallback_spec content bot_start1 bot_start2 with ⟨h, _⟩ | ⟨i, h, hocc⟩
    · rw [hfs] at h
      exact absurd h hne1
    · rw [hfs] at h
      subst h
      rw [single_func_end] at hfe
      rcases py_find_from_spec content single_end_marker i with ⟨h2, _⟩ | ⟨j, h2, hocce⟩
      · rw [hfe] at h2
        exact absurd h2 hne2
      · rw [hfe] at h2
        subst h2
        have hjlen : j < content.length :=
          occ_at_lt_length _ _ _ (by decide) hocce.2.1
        have hij : i ≠ j := by
          intro hij
          subst hij
          exact single_markers_incomp content i (start_occ_of_fallback content i hocc) hocce.2.1
        have := hocce.1
        refine ⟨by omega, by omega, by omega⟩

theorem c8_witness :
    (0 ≤ (0 : Int) ∧ (0 : Int) < (bot_start1.length : Int) ∧
      (bot_start1.length : Int) ≤
        (((bot_start1 ++ bot_end1 ++ single_end_marker).length : Nat) : Int)) ∧
    (0 ≤ (0 : Int) ∧
      (0 : Int) < ((bot_start1 ++ bot_end1).length : Int) ∧
      ((bot_start1 ++ bot_end1).length : Int) ≤
        (((bot_start1 ++ bot_end1 ++ single_end_marker).length : Nat) : Int) ) := by
  constructor
  · exact (c8_offsets_invariant (bot_start1 ++ bot_end1 ++ single_end_marker) 0
      bot_start1.length).1 (by decide) (by decide) (by decide) (by decide)
  · exact (c8_offsets_invariant (bot_start1 ++ bot_end1 ++ single_end_marker) 0
      (bot_start1 ++ bot_end1).length).2 (by decide) (by decide) (by decide) (by decide)

/-- Claim C3: the located start offset is the first occurrence of the
highest-priority start marker that occurs in the document (falling through
to the second marker only when the first occurs nowhere), and the end
offset is the first occurrence of the highest-priority end marker searched
from the start offset onward, so an end-marker occurrence strictly before
the start offset is never selected (`fs <= fe`). -/
theorem c3_locator_first_occurrence :
    ∀ (content : List Char) (fs fe : Int),
      (bot_func_start content = fs → fs ≠ -1 →
        (first_occ bot_start1 content fs.toNat ∨
          (no_occ bot_start1 content ∧ first_occ bot_start2 content fs.toNat))) ∧
      (bot_func_start content = fs → fs ≠ -1 → bot_func_end content fs = fe → fe ≠ -1 →
        fs ≤ fe ∧
        (first_occ_from bot_end1 content fs.toNat fe.toNat ∨
          (no_occ_from bot_end1 content fs.toNat ∧
            first_occ_from bot_end2 content fs.toNat fe.toNat))) ∧
      (single_func_start content = fs → fs ≠ -1 →
        (first_occ bot_start1 content fs.toNat ∨
          (no_occ bot_start1 content ∧ first_occ bot_start2 content fs.toNat))) ∧
      (single_func_end content fs = fe → fs ≠ -1 → bot_func_start content = fs → fe ≠ -1 →
        fs ≤ fe ∧ first_occ_from single_end_marker content fs.toNat fe.toNat) := by
  intro content fs fe
  have hstart : bot_func_start content = fs → fs ≠ -1 →
      (first_occ bot_start1 content fs.toNat ∨
        (no_occ bot_start1 content ∧ first_occ bot_start2 content fs.toNat)) := by
    intro hfs hne
    rw [bot_func_start] at hfs
    rcases find_fallback_spec content bot_start1 bot_start2 with ⟨h, _⟩ | ⟨i, h, hocc⟩
    · rw [hfs] at h
      exact absurd h hne
    · rw [hfs] at h
      subst h
      simpa using hocc
  refine ⟨hstart, ?_, hstart, ?_⟩
  · intro hfs hne1 hfe hne2
    rw [bot_func_start] at hfs
    rcases find_fallback_spec content bot_start1 bot_start2 with ⟨h, _⟩ | ⟨i, h, _⟩
    · rw [hfs] at h
      exact absurd h hne1
    · rw [hfs] at h
      subst h
      rw [bot_func_end] at hfe
      rcases find_from_fallback_spec content bot_end1 bot_end2 i with ⟨h2, _⟩ | ⟨j, h2, hocce⟩
      · rw [hfe] at h2
        exact absurd h2 hne2
      · rw [hfe] at h2
        subst h2
        have hij : i ≤ j := by
          rcases hocce with h | ⟨_, h⟩
          · exact h.1
          · exact h.1
        refine ⟨by omega, by simpa using hocce⟩
  · intro hfe hne1 hfs hne2
    rw [bot_func_start] at hfs
    rcases find_fallback_spec content bot_start1 bot_start2 with ⟨h, _⟩ | ⟨i, h, _⟩
    · rw [hfs] at h
      exact absurd h hne1
    · rw [hfs] at h
      subst h
      rw [single_func_end] at hfe
      rcases py_find_from_spec content single_end_marker i with ⟨h2, _⟩ | ⟨j, h2, hocce⟩
      · rw [hfe] at h2
        exact absurd h2 hne2
      · rw [hfe] at h2
        subst h2
        have hij : i ≤ j := hocce.1
        refine ⟨by omega, by simpa using hocce⟩

theorem c3_witness :
    (first_occ bot_start1 (bot_start1 ++ bot_end1 ++ single_end_marker) 0 ∨
      (no_occ bot_start1 (bot_start1 ++ bot_end1 ++ single_end_marker) ∧
        first_occ bot_start2 (bot_start1 ++ bot_end1 ++ single_end_marker) 0)) ∧
    (first_occ_from bot_end1 (bot_start1 ++ bot_end1 ++ single_end_marker) 0
        bot_start1.length ∨
      (no_occ_from bot_end1 (bot_start1 ++ bot_end1 ++ single_end_marker) 0 ∧
        first_occ_from bot_end2 (bot_start1 ++ bot_end1 ++ single_end_marker) 0
          bot_start1.length)) := by
  have h := c3_locator_first_occurrence (bot_start1 ++ bot_end1 ++ single_end_marker) 0
    bot_start1.length
  have h1 := h.1 (by decide) (by decide)
  have h2 := (h.2.1 (by decide) (by decide) (by decide) (by decide)).2
  constructor
  · simpa using h1
  · simpa using h2

instance occ_at_decidable (p s : List Char) (i : Nat) : Decidable (occ_at p s i) :=
  inferInstanceAs (Decidable (p <+: s.drop i))

instance first_occ_decidable (p s : List Char) (i : Nat) : Decidable (first_occ p s i) :=
  inferInstanceAs (Decidable (occ_at p s i ∧ ∀ j, j < i → ¬ occ_at p s j))

instance first_occ_from_decidable (p s : List Char) (st i : Nat) :
    Decidable (first_occ_from p s st i) :=
  inferInstanceAs (Decidable (st ≤ i ∧ occ_at p s i ∧ ∀ j, st ≤ j → j < i → ¬ occ_at p s j))

/-- Claim C5: when both span markers of the tab-section excision are found
(the start marker anywhere in the region, the end marker from the start of
the whole region, its first occurrence being the cut point), the excision
keeps exactly `region[:ts] ++ region[te:]`: it deletes everything from the
span start marker's start through the span end marker's start and nothing
else. -/
theorem c5_tab_span_removal :
    ∀ (f : List Char) (ts te : Nat),
      first_occ tab_sec_start f ts → first_occ tab_sec_end f te →
      tab_excision f = f.take ts ++ f.drop te := by
  intro f ts te hs he
  have h1 : py_find f tab_sec_start = (ts : Int) := by
    rw [py_find, py_find_idx_some_of_first f tab_sec_start ts hs]
  have h2 : py_find f tab_sec_end = (te : Int) := by
    rw [py_find, py_find_idx_some_of_first f tab_sec_end te he]
  rw [tab_excision]
  simp only [h1, h2]
  rw [if_pos ⟨by omega, by omega⟩]
  simp

theorem c5_witness :
    tab_excision (tab_sec_start ++ tab_sec_end) =
      (tab_sec_start ++ tab_sec_end).take 0 ++
        (tab_sec_start ++ tab_sec_end).drop tab_sec_start.length := by
  exact c5_tab_span_removal (tab_sec_start ++ tab_sec_end) 0 tab_sec_start.length
    (by decide) (by decide)

/-- Claim C7: an excision whose span start marker or span end marker is
absent leaves the region text unchanged, and the pipeline still runs to
completion (the script still writes output and exits 0 whenever the locator
succeeded): a missing span marker is never fatal. -/
theorem c7_missing_span_marker_not_fatal :
    ∀ (f content : List Char),
      ((py_find f tab_sec_start = -1 ∨ py_find f tab_sec_end = -1) → tab_excision f = f) ∧
      ((py_find f wait_sec_start = -1 ∨ py_find f wait_sec_end = -1) → wait_excision f = f) ∧
      (single_func_start content ≠ -1 →
        single_func_end content (single_func_start content) ≠ -1 →
        (single_main content).1.isSome = true ∧ (single_main content).2 = 0) := by
  intro f content
  refine ⟨?_, ?_, ?_⟩
  · intro h
    simp only [tab_excision]
    rw [if_neg (by
      intro hc
      rcases h with h | h
      · exact hc.1 h
      · exact hc.2 h)]
  · intro h
    simp only [wait_excision]
    rw [if_neg (by
      intro hc
      rcases h with h | h
      · exact hc.1 h
      · exact hc.2 h)]
  · intro h1 h2
    simp only [single_main]
    rw [if_neg (by push_neg; exact ⟨h1, h2⟩)]
    simp

theorem c7_witness :
    tab_excision ['x'] = ['x'] ∧ wait_excision ['x'] = ['x'] ∧
      (single_main (bot_start2 ++ single_end_marker)).1.isSome = true ∧
      (single_main (bot_start2 ++ single_end_marker)).2 = 0 := by
  have h := c7_missing_span_marker_not_fatal ['x'] (bot_start2 ++ single_end_marker)
  have h3 := h.2.2 (by decide) (by decide)
  exact ⟨h.1 (Or.inl (by decide)), h.2.1 (Or.inl (by decide)), h3.1, h3.2⟩

/-! Prefix and infix helper lemmas used by the replacement analysis. -/

theorem pre_append_short (q a b : List Char) (h : q <+: a ++ b)
    (hl : q.length ≤ a.length) : q <+: a :=
  List.prefix_of_prefix_length_le h (List.prefix_append a b) hl

theorem pre_append_long (q a b : List Char) (h : q <+: a ++ b)
    (hl : a.length ≤ q.length) : a <+: q ∧ q.drop a.length <+: b := by
  have ha : a <+: q := List.prefix_of_prefix_length_le (List.prefix_append a b) h hl
  obtain ⟨t, ht⟩ := ha
  obtain ⟨u, hu⟩ := h
  refine ⟨⟨t, ht⟩, ?_⟩
  have htq : q.drop a.length = t := by rw [← ht, List.drop_left]
  rw [htq]
  refine ⟨u, ?_⟩
  have hassoc : a ++ (t ++ u) = a ++ b := by
    rw [← List.append_assoc, ht, hu]
  exact List.append_cancel_left hassoc

theorem drop_pre_of_pre (p s : List Char) (i : Nat) (h : p <+: s) :
    p.drop i <+: s.drop i := by
  obtain ⟨t, rfl⟩ := h
  rcases Nat.le_total i p.length with hl | hl
  · rw [List.drop_append_of_le_length hl]
    exact List.prefix_append _ _
  · rw [List.drop_eq_nil_of_le hl]
    exact List.nil_prefix

theorem infix_iff_occ (q l : List Char) : q <:+: l ↔ ∃ i, occ_at q l i := by
  constructor
  · rintro ⟨s, t, rfl⟩
    refine ⟨s.length, ?_⟩
    rw [occ_at, List.append_assoc, List.drop_left]
    exact List.prefix_append _ _
  · rintro ⟨i, hi⟩
    rw [occ_at] at hi
    obtain ⟨t, ht⟩ := hi
    refine ⟨l.take i, t, ?_⟩
    rw [List.append_assoc, ht, List.take_append_drop]

theorem no_occ_iff_not_infix (p s : List Char) : no_occ p s ↔ ¬ p <:+: s := by
  rw [infix_iff_occ]
  push_neg
  rfl

theorem infix_of_infix_drop (q s : List Char) (k : Nat) (h : q <:+: s.drop k) :
    q <:+: s :=
  h.trans (List.drop_suffix k s).isInfix

/-- Python count is zero exactly when the pattern is not a substring. -/
theorem py_count_eq_zero_iff_aux (p : List Char) (hp : p ≠ []) :
    ∀ (n : Nat) (s : List Char), s.length ≤ n → (py_count s p = 0 ↔ ¬ p <:+: s) := by
  intro n
  induction n with
  | zero =>
    intro s hs
    have hnil : s = [] := List.length_eq_zero.mp (by omega)
    subst hnil
    rw [py_count_nil _ hp]
    simp only [List.infix_nil]
    simp [hp]
  | succ n ih =>
    intro s hs
    by_cases hpre : p <+: s
    · rw [py_count_pos s p hp hpre]
      constructor
      · intro h
        exact absurd h (by omega)
      · intro h
        exact absurd hpre.isInfix h
    · cases s with
      | nil =>
        rw [py_count_nil _ hp]
        simp only [List.infix_nil]
        simp [hp]
      | cons a t =>
        rw [py_count_neg a t p hpre]
        rw [ih t (by simp at hs; omega)]
        rw [List.infix_cons_iff]
        simp [hpre]

theorem py_count_eq_zero_iff (s p : List Char) (hp : p ≠ []) :
    py_count s p = 0 ↔ ¬ p <:+: s :=
  py_count_eq_zero_iff_aux p hp s.length s le_rfl

/-- Scanning past positions with no match does not change the count. -/
theorem py_count_drop_of_no_match (p : List Char) (hp : p ≠ []) :
    ∀ (n : Nat) (s : List Char), (∀ i, i < n → ¬ p <+: s.drop i) →
      py_count s p = py_count (s.drop n) p := by
  intro n
  induction n with
  | zero =>
    intro s _
    simp
  | succ n ih =>
    intro s h
    rw [ih s (fun i hi => h i (by omega))]
    have h1 : (s.drop n).drop 1 = s.drop (n + 1) := by
      rw [List.drop_drop]
    cases hd : s.drop n with
    | nil =>
      have h2 : s.drop (n + 1) = [] := by
        rw [← h1, hd]
        rfl
      rw [h2]
    | cons a t =>
      have hnp : ¬ p <+: (a :: t) := by
        have := h n (by omega)
        rwa [hd] at this
      rw [hd] at h1
      simp only [List.drop_succ_cons, List.drop_zero] at h1
      rw [py_count_neg a t p hnp, h1]

/-- Replacement copies positions with no match verbatim. -/
theorem py_replace_skip (p r : List Char) (hp : p ≠ []) :
    ∀ (n : Nat) (s : List Char), n ≤ s.length → (∀ i, i < n → ¬ p <+: s.drop i) →
      py_replace s p r = s.take n ++ py_replace (s.drop n) p r := by
  intro n
  induction n with
  | zero =>
    intro s _ _
    simp
  | succ n ih =>
    intro s hn h
    rw [ih s (by omega) (fun i hi => h i (by omega))]
    have h1 : (s.drop n).drop 1 = s.drop (n + 1) := by
      rw [List.drop_drop]
    cases hd : s.drop n with
    | nil =>
      exfalso
      have := congrArg List.length hd
      simp only [List.length_drop] at this
      simp at this
      omega
    | cons a t =>
      have hnp : ¬ p <+: (a :: t) := by
        have := h n (by omega)
        rwa [hd] at this
      rw [hd] at h1
      simp only [List.drop_succ_cons, List.drop_zero] at h1
      have hhead : s[n]? = some a := by
        rw [← List.head?_drop, hd]
        rfl
      rw [py_replace_neg a t p r hnp, h1]
      rw [List.take_succ, hhead]
      simp

/-- Core alignment lemma: when every nonempty proper suffix of `q` is
prefix-incomparable with `r`, a proper suffix of `q` can begin the rewritten
text only if it already began the original text. -/
theorem q_suffix_pre_replace (p r q : List Char) (hp : p ≠ [])
    (hq : ∀ j, 0 < j → j < q.length → ¬ (q.drop j <+: r) ∧ ¬ (r <+: q.drop j)) :
    ∀ (n : Nat) (s : List Char), s.length ≤ n → ∀ j, 0 < j →
      q.drop j <+: py_replace s p r → q.drop j <+: s := by
  intro n
  induction n with
  | zero =>
    intro s hs j _ h
    have hnil : s = [] := List.length_eq_zero.mp (by omega)
    subst hnil
    rwa [py_replace_nil _ _ hp] at h
  | succ n ih =>
    intro s hs j hj h
    by_cases hqj : q.drop j = []
    · rw [hqj]
      exact List.nil_prefix
    · have hjlen : j < q.length := by
        by_contra hc
        push_neg at hc
        exact hqj (List.drop_eq_nil_of_le hc)
      by_cases hpre : p <+: s
      · rw [py_replace_pos s p r hp hpre] at h
        rcases Nat.le_total (q.drop j).length r.length with hl | hl
        · exact absurd (pre_append_short _ _ _ h hl) (hq j hj hjlen).1
        · exact absurd (pre_append_long _ _ _ h hl).1 (hq j hj hjlen).2
      · cases s with
        | nil =>
          rwa [py_replace_nil _ _ hp] at h
        | cons a t =>
          rw [py_replace_neg a t p r hpre] at h
          cases hqd : q.drop j with
          | nil => exact absurd hqd hqj
          | cons b u =>
            rw [hqd, List.cons_prefix_cons] at h
            obtain ⟨rfl, hu⟩ := h
            have hu' : q.drop (j + 1) = u := by
              have h1 : (q.drop j).drop 1 = q.drop (j + 1) := by
                rw [List.drop_drop]
              rw [hqd] at h1
              simpa using h1.symm
            by_cases hunil : u = []
            · rw [hunil, List.cons_prefix_cons]
              exact ⟨rfl, List.nil_prefix⟩
            · have ht := ih t (by simp at hs; omega) (j + 1) (by omega)
                (by rw [hu']; exact hu)
              rw [List.cons_prefix_cons]
              rw [hu'] at ht
              exact ⟨rfl, ht⟩

/-- The conditions on a substitution rule `(p, r)` under which the rewritten
text provably contains no occurrence of `p` and gains exactly one `r` per
replaced occurrence, for every input text. -/
def rule_ok (p r : List Char) : Prop :=
  p ≠ [] ∧ r ≠ [] ∧ ¬ p <:+: r ∧ ¬ r <:+: p ∧
  (∀ i, i < r.length → ¬ (r.drop i <+: p)) ∧
  (∀ j, j < p.length → 0 < j → ¬ (p.drop j <+: r) ∧ ¬ (r <+: p.drop j)) ∧
  (∀ j, j < r.length → 0 < j → ¬ (r.drop j <+: r) ∧ ¬ (r <+: r.drop j))

instance rule_ok_decidable (p r : List Char) : Decidable (rule_ok p r) :=
  inferInstanceAs (Decidable (p ≠ [] ∧ r ≠ [] ∧ ¬ p <:+: r ∧ ¬ r <:+: p ∧
    (∀ i, i < r.length → ¬ (r.drop i <+: p)) ∧
    (∀ j, j < p.length → 0 < j → ¬ (p.drop j <+: r) ∧ ¬ (r <+: p.drop j)) ∧
    (∀ j, j < r.length → 0 < j → ¬ (r.drop j <+: r) ∧ ¬ (r <+: r.drop j))))

/-- After `s.replace(p, r)` the pattern `p` does not occur at all. -/
theorem replace_kills_pattern_aux (p r : List Char) (hok : rule_ok p r) :
    ∀ (n : Nat) (s : List Char), s.length ≤ n → ¬ p <:+: py_replace s p r := by
  obtain ⟨hp, hr, hpin, hrin, hB, hC, hF⟩ := hok
  intro n
  induction n with
  | zero =>
    intro s hs hinf
    have hnil : s = [] := List.length_eq_zero.mp (by omega)
    subst hnil
    rw [py_replace_nil _ _ hp, List.infix_nil] at hinf
    exact hp hinf
  | succ n ih =>
    intro s hs hinf
    by_cases hpre : p <+: s
    · have hslen : 0 < s.length := by
        cases s with
        | nil => exact absurd (List.prefix_nil.mp hpre) hp
        | cons a t => simp
      rw [py_replace_pos s p r hp hpre] at hinf
      rw [infix_iff_occ] at hinf
      obtain ⟨i, hi⟩ := hinf
      rw [occ_at] at hi
      rcases Nat.lt_or_ge i r.length with hir | hir
      · rw [List.drop_append_of_le_length (by omega)] at hi
        rcases Nat.le_total p.length (r.drop i).length with hl | hl
        · have hpr : p <+: r.drop i := pre_append_short _ _ _ hi hl
          exact hpin (hpr.isInfix.trans (List.drop_suffix i r).isInfix)
        · exact hB i hir (pre_append_long _ _ _ hi hl).1
      · have hdd : (r ++ py_replace (s.drop p.length) p r).drop i =
            (py_replace (s.drop p.length) p r).drop (i - r.length) := by
          have hi' : i = r.length + (i - r.length) := by omega
          rw [hi', List.drop_append, Nat.add_sub_cancel_left]
        rw [hdd] at hi
        have hplen : 0 < p.length := List.length_pos.mpr hp
        apply ih (s.drop p.length) (by simp; omega)
        rw [infix_iff_occ]
        exact ⟨i - r.length, hi⟩
    · cases s with
      | nil =>
        rw [py_replace_nil _ _ hp, List.infix_nil] at hinf
        exact hp hinf
      | cons a t =>
        rw [py_replace_neg a t p r hpre] at hinf
        rw [List.infix_cons_iff] at hinf
        rcases hinf with hpre2 | hinf
        · cases hp0 : p with
          | nil => exact hp hp0
          | cons b p' =>
            rw [hp0, List.cons_prefix_cons] at hpre2
            obtain ⟨rfl, hp'⟩ := hpre2
            by_cases hp'nil : p' = []
            · apply hpre
              rw [hp0, hp'nil, List.cons_prefix_cons]
              exact ⟨rfl, List.nil_prefix⟩
            · have hq1 : p.drop 1 <+: py_replace t p r := by
                rw [hp0]
                simpa using hp'
              have hplen : 1 < p.length := by
                rw [hp0]
                simp
                exact List.length_pos.mpr hp'nil
              have hdt := q_suffix_pre_replace p r p hp
                (fun j hj hjl => hC j hjl hj) n t (by simp at hs; omega) 1
                (by omega) hq1
              apply hpre
              rw [hp0, List.cons_prefix_cons]
              refine ⟨rfl, ?_⟩
              rw [hp0] at hdt
              simpa using hdt
        · exact ih t (by simp at hs; omega) hinf

/-- A pattern `q` absent from the input and not re-creatable from `r`
stays absent after `s.replace(p, r)`. -/
theorem replace_preserves_absent_aux (p r q : List Char) (hp : p ≠ [])
    (hA : ¬ q <:+: r)
    (hB : ∀ i, i < r.length → ¬ (r.drop i <+: q))
    (hq : ∀ j, j < q.length → 0 < j → ¬ (q.drop j <+: r) ∧ ¬ (r <+: q.drop j)) :
    ∀ (n : Nat) (s : List Char), s.length ≤ n → ¬ q <:+: s →
      ¬ q <:+: py_replace s p r := by
  intro n
  induction n with
  | zero =>
    intro s hs hqs hinf
    have hnil : s = [] := List.length_eq_zero.mp (by omega)
    subst hnil
    rw [py_replace_nil _ _ hp] at hinf
    exact hqs hinf
  | succ n ih =>
    intro s hs hqs hinf
    have hqnil : q ≠ [] := by
      rintro rfl
      exact hqs List.nil_infix
    by_cases hpre : p <+: s
    · have hslen : 0 < s.length := by
        cases s with
        | nil => exact absurd (List.prefix_nil.mp hpre) hp
        | cons a t => simp
      rw [py_replace_pos s p r hp hpre] at hinf
      rw [infix_iff_occ] at hinf
      obtain ⟨i, hi⟩ := hinf
      rw [occ_at] at hi
      rcases Nat.lt_or_ge i r.length with hir | hir
      · rw [List.drop_append_of_le_length (by omega)] at hi
        rcases Nat.le_total q.length (r.drop i).length with hl | hl
        · have hqr : q <+: r.drop i := pre_append_short _ _ _ hi hl
          exact hA (hqr.isInfix.trans (List.drop_suffix i r).isInfix)
        · exact hB i hir (pre_append_long _ _ _ hi hl).1
      · have hdd : (r ++ py_replace (s.drop p.length) p r).drop i =
            (py_replace (s.drop p.length) p r).drop (i - r.length) := by
          have hi' : i = r.length + (i - r.length) := by omega
          rw [hi', List.drop_append, Nat.add_sub_cancel_left]
        rw [hdd] at hi
        have hplen : 0 < p.length := List.length_pos.mpr hp
        apply ih (s.drop p.length) (by simp; omega)
          (fun hc => hqs (infix_of_infix_drop q s p.length hc))
        rw [infix_iff_occ]
        exact ⟨i - r.length, hi⟩
    · cases s with
      | nil =>
        rw [py_replace_nil _ _ hp] at hinf
        exact hqs hinf
      | cons a t =>
        have hqt : ¬ q <:+: t := by
          intro hc
          exact hqs (List.infix_cons_iff.mpr (Or.inr hc))
        rw [py_replace_neg a t p r hpre] at hinf
        rw [List.infix_cons_iff] at hinf
        rcases hinf with hpre2 | hinf
        · cases hq0 : q with
          | nil => exact hqnil hq0
          | cons b q' =>
            rw [hq0, List.cons_prefix_cons] at hpre2
            obtain ⟨rfl, hq'⟩ := hpre2
            by_cases hq'nil : q' = []
            · apply hqs
              apply List.infix_cons_iff.mpr
              apply Or.inl
              rw [hq0, hq'nil, List.cons_prefix_cons]
              exact ⟨rfl, List.nil_prefix⟩
            · have hq1 : q.drop 1 <+: py_replace t p r := by
                rw [hq0]
                simpa using hq'
              have hqlen : 1 < q.length := by
                rw [hq0]
                simp
                exact List.length_pos.mpr hq'nil
              have hdt := q_suffix_pre_replace p r q hp
                (fun j hj hjl => hq j hjl hj) n t (by simp at hs; omega) 1
                (by omega) hq1
              apply hqs
              apply List.infix_cons_iff.mpr
              apply Or.inl
              rw [hq0, List.cons_prefix_cons]
              refine ⟨rfl, ?_⟩
              rw [hq0] at hdt
              simpa using hdt
        · exact ih t (by simp at hs; omega) hqt hinf

theorem pre_cons_iff (q : List Char) (hq : q ≠ []) (a : Char) (t : List Char) :
    q <+: a :: t ↔ q.head? = some a ∧ q.drop 1 <+: t := by
  cases q with
  | nil => exact absurd rfl hq
  | cons b q' =>
    rw [List.cons_prefix_cons]
    simp [eq_comm]

/-- Replacement changes the count of `r` by exactly the count of `p`. -/
theorem count_replace_rep_aux (p r : List Char) (hok : rule_ok p r) :
    ∀ (n : Nat) (s : List Char), s.length ≤ n →
      py_count (py_replace s p r) r = py_count s r + py_count s p := by
  obtain ⟨hp, hr, hpin, hrin, hB, hC, hF⟩ := hok
  intro n
  induction n with
  | zero =>
    intro s hs
    have hnil : s = [] := List.length_eq_zero.mp (by omega)
    subst hnil
    rw [py_replace_nil _ _ hp, py_count_nil _ hr, py_count_nil _ hp]
  | succ n ih =>
    intro s hs
    by_cases hpre : p <+: s
    · have hplen : 0 < p.length := List.length_pos.mpr hp
      have hslen : 0 < s.length := by
        cases s with
        | nil => exact absurd (List.prefix_nil.mp hpre) hp
        | cons a t => simp
      have hnoR : ∀ i, i < p.length → ¬ r <+: s.drop i := by
        intro i hi hri
        have hpi : p.drop i <+: s.drop i := drop_pre_of_pre p s i hpre
        rcases Nat.le_total r.length (p.drop i).length with hl | hl
        · have hrp : r <+: p.drop i := List.prefix_of_prefix_length_le hri hpi hl
          rcases Nat.eq_zero_or_pos i with rfl | hipos
          · exact hrin (by simpa using hrp : r <+: p).isInfix
          · exact (hC i hi hipos).2 hrp
        · have hpr : p.drop i <+: r := List.prefix_of_prefix_length_le hpi hri hl
          rcases Nat.eq_zero_or_pos i with rfl | hipos
          · exact hpin (by simpa using hpr : p <+: r).isInfix
          · exact (hC i hi hipos).1 hpr
      rw [py_replace_pos s p r hp hpre]
      rw [py_count_pos _ r hr (List.prefix_append r _), List.drop_left]
      rw [ih (s.drop p.length) (by simp; omega)]
      rw [py_count_pos s p hp hpre]
      rw [py_count_drop_of_no_match r hr p.length s hnoR]
      omega
    · by_cases hrpre : r <+: s
      · have hrlen : 0 < r.length := List.length_pos.mpr hr
        have hnoP : ∀ i, i < r.length → ¬ p <+: s.drop i := by
          intro i hi hpi
          rcases Nat.eq_zero_or_pos i with rfl | hipos
          · exact hpre (by simpa using hpi)
          · have hri : r.drop i <+: s.drop i := drop_pre_of_pre r s i hrpre
            rcases Nat.le_total p.length (r.drop i).length with hl | hl
            · have := List.prefix_of_prefix_length_le hpi hri hl
              exact hpin (this.isInfix.trans (List.drop_suffix i r).isInfix)
            · have := List.prefix_of_prefix_length_le hri hpi hl
              exact hB i hi this
        have hrslen : r.length ≤ s.length := hrpre.length_le
        rw [py_replace_skip p r hp r.length s hrslen hnoP]
        have htake : s.take r.length = r := (List.prefix_iff_eq_take.mp hrpre).symm
        rw [htake]
        rw [py_count_pos _ r hr (List.prefix_append r _), List.drop_left]
        rw [ih (s.drop r.length) (by simp; omega)]
        rw [py_count_pos s r hr hrpre]
        rw [py_count_drop_of_no_match p hp r.length s hnoP]
        omega
      · cases s with
        | nil =>
          rw [py_replace_nil _ _ hp, py_count_nil _ hr, py_count_nil _ hp]
        | cons a t =>
          have hnoRhead : ¬ r <+: a :: py_replace t p r := by
            intro hc
            rw [pre_cons_iff r hr a (py_replace t p r)] at hc
            have hdt := q_suffix_pre_replace p r r hp (fun j hj hjl => hF j hjl hj)
              t.length t le_rfl 1 (by omega) hc.2
            apply hrpre
            rw [pre_cons_iff r hr a t]
            exact ⟨hc.1, hdt⟩
          rw [py_replace_neg a t p r hpre]
          rw [py_count_neg a _ r hnoRhead]
          rw [ih t (by simp at hs; omega)]
          rw [py_count_neg a t r hrpre]
          rw [py_count_neg a t p hpre]

/-- Replacement output count facts, fuel-free wrappers. -/
theorem replace_count_pattern_zero (p r s : List Char) (hok : rule_ok p r) :
    py_count (py_replace s p r) p = 0 := by
  rw [py_count_eq_zero_iff _ _ hok.1]
  exact replace_kills_pattern_aux p r hok s.length s le_rfl

theorem replace_count_rep (p r s : List Char) (hok : rule_ok p r) :
    py_count (py_replace s p r) r = py_count s r + py_count s p :=
  count_replace_rep_aux p r hok s.length s le_rfl

/-- Replacement with an absent pattern is the identity. -/
theorem py_replace_of_no_occ (s p r : List Char) (h : ¬ p <:+: s) :
    py_replace s p r = s := by
  have hp : p ≠ [] := by
    rintro rfl
    exact h List.nil_infix
  induction s with
  | nil => exact py_replace_nil _ _ hp
  | cons a t ih =>
    have hnp : ¬ p <+: (a :: t) := fun hc => h (List.infix_cons_iff.mpr (Or.inl hc))
    have hnt : ¬ p <:+: t := fun hc => h (List.infix_cons_iff.mpr (Or.inr hc))
    rw [py_replace_neg a t p r hnp, ih hnt]

/-- Every rule in both scripts' tables satisfies the side conditions (in
particular no pattern overlaps itself and no replacement contains its
pattern). -/
theorem all_rules_ok : ∀ pr ∈ bot_replacements ++ single_replacements, rule_ok pr.1 pr.2 := by
  decide

/-- Claim C4: for every region text and every rule `(p, r)` of the tables
(all of which have a non-self-overlapping `p` and an `r` not containing
`p`), the applied rule leaves zero occurrences of `p`, adds exactly
`count` occurrences of `r` where `count` is the occurrence count of `p`
at application time — which is what the script reports — and a
zero-occurrence rule is an unchanged-text no-op, not an error. -/
theorem c4_substitution_totality :
    ∀ pr ∈ bot_replacements ++ single_replacements, ∀ txt : List Char,
      py_count (apply_rule txt pr).1 pr.1 = 0 ∧
      py_count (apply_rule txt pr).1 pr.2 = py_count txt pr.2 + (apply_rule txt pr).2 ∧
      (apply_rule txt pr).2 = py_count txt pr.1 ∧
      (py_count txt pr.1 = 0 → (apply_rule txt pr).1 = txt) := by
  intro pr hpr txt
  have hok : rule_ok pr.1 pr.2 := all_rules_ok pr hpr
  by_cases hc : 0 < py_count txt pr.1
  · have h1 : (apply_rule txt pr).1 = py_replace txt pr.1 pr.2 := by
      simp only [apply_rule, if_pos hc]
    have h2 : (apply_rule txt pr).2 = py_count txt pr.1 := rfl
    rw [h1, h2]
    exact ⟨replace_count_pattern_zero pr.1 pr.2 txt hok,
      replace_count_rep pr.1 pr.2 txt hok, rfl, fun h0 => absurd h0 (by omega)⟩
  · have h0 : py_count txt pr.1 = 0 := by omega
    have h1 : (apply_rule txt pr).1 = txt := by
      simp only [apply_rule, if_neg hc]
    have h2 : (apply_rule txt pr).2 = py_count txt pr.1 := rfl
    rw [h1, h2, h0]
    exact ⟨rfl, by omega, rfl, fun _ => rfl⟩

theorem c4_witness :
    py_count (apply_rule "await page.evaluate(x)".toList
        ("await page.evaluate".toList, "await productPage.evaluate".toList)).1
      "await page.evaluate".toList = 0 ∧
    py_count (apply_rule "await page.evaluate(x)".toList
        ("await page.evaluate".toList, "await productPage.evaluate".toList)).1
      "await productPage.evaluate".toList =
      py_count "await page.evaluate(x)".toList "await productPage.evaluate".toList +
        (apply_rule "await page.evaluate(x)".toList
          ("await page.evaluate".toList, "await productPage.evaluate".toList)).2 ∧
    (apply_rule "await page.evaluate(x)".toList
        ("await page.evaluate".toList, "await productPage.evaluate".toList)).2 =
      py_count "await page.evaluate(x)".toList "await page.evaluate".toList ∧
    (py_count "await page.evaluate(x)".toList "await page.evaluate".toList = 0 →
      (apply_rule "await page.evaluate(x)".toList
        ("await page.evaluate".toList, "await productPage.evaluate".toList)).1 =
        "await page.evaluate(x)".toList) :=
  c4_substitution_totality
    ("await page.evaluate".toList, "await productPage.evaluate".toList)
    (by decide) "await page.evaluate(x)".toList

/-- Core of the redundancy argument for the await-prefixed rules: replacing
`w ++ p` by `w ++ r` first does not change the final result of replacing
`p` by `r`. -/
theorem double_replace_aux (w p r : List Char) (hp : p ≠ [])
    (c2 : ¬ p <:+: w)
    (c3 : ∀ i, i < w.length → ¬ (w.drop i <+: p))
    (c4 : ¬ p <:+: r)
    (c5 : ∀ i, i < r.length → ¬ (r.drop i <+: p))
    (c6 : ∀ j, j < p.length → 0 < j → ¬ (p.drop j <+: w ++ r) ∧ ¬ ((w ++ r) <+: p.drop j))
    (c7 : ∀ j, j < p.length → 0 < j → ¬ (p.drop j <+: w ++ p)) :
    ∀ (n : Nat) (s : List Char), s.length ≤ n →
      py_replace (py_replace s (w ++ p) (w ++ r)) p r = py_replace s p r := by
  have hP1 : w ++ p ≠ [] := by simp [hp]
  have hplen : 0 < p.length := List.length_pos.mpr hp
  have hnoW : ∀ (X : List Char) (i : Nat), i < w.length → ¬ p <+: (w ++ X).drop i := by
    intro X i hi hco
    rw [List.drop_append_of_le_length (by omega)] at hco
    rcases Nat.le_total p.length (w.drop i).length with hl | hl
    · exact c2 ((pre_append_short _ _ _ hco hl).isInfix.trans (List.drop_suffix i w).isInfix)
    · exact c3 i hi (pre_append_long _ _ _ hco hl).1
  have hnoR : ∀ (X : List Char) (i : Nat), i < r.length → ¬ p <+: (r ++ X).drop i := by
    intro X i hi hco
    rw [List.drop_append_of_le_length (by omega)] at hco
    rcases Nat.le_total p.length (r.drop i).length with hl | hl
    · exact c4 ((pre_append_short _ _ _ hco hl).isInfix.trans (List.drop_suffix i r).isInfix)
    · exact c5 i hi (pre_append_long _ _ _ hco hl).1
  intro n
  induction n with
  | zero =>
    intro s hs
    have hnil : s = [] := List.length_eq_zero.mp (by omega)
    subst hnil
    rw [py_replace_nil _ _ hP1]
  | succ n ih =>
    intro s hs
    by_cases hA : (w ++ p) <+: s
    · obtain ⟨s', hs'⟩ := hA
      subst hs'
      have hs'len : s'.length ≤ n := by
        simp [List.length_append] at hs
        omega
      rw [py_replace_pos ((w ++ p) ++ s') (w ++ p) (w ++ r) hP1 (List.prefix_append _ _)]
      rw [List.drop_left]
      rw [List.append_assoc w r (py_replace s' (w ++ p) (w ++ r))]
      rw [py_replace_skip p r hp w.length (w ++ (r ++ py_replace s' (w ++ p) (w ++ r)))
        (by simp) (fun i hi => hnoW _ i hi)]
      rw [List.take_left, List.drop_left]
      rw [py_replace_skip p r hp r.length (r ++ py_replace s' (w ++ p) (w ++ r))
        (by simp) (fun i hi => hnoR _ i hi)]
      rw [List.take_left, List.drop_left]
      rw [ih s' hs'len]
      rw [List.append_assoc w p s']
      rw [py_replace_skip p r hp w.length (w ++ (p ++ s')) (by simp) (fun i hi => hnoW _ i hi)]
      rw [List.take_left, List.drop_left]
      rw [py_replace_pos (p ++ s') p r hp (List.prefix_append _ _), List.drop_left]
    · cases s with
      | nil =>
        rw [py_replace_nil _ _ hP1]
      | cons a t =>
        rw [py_replace_neg a t (w ++ p) (w ++ r) hA]
        by_cases hB1 : p <+: (a :: t)
        · have hp1t : p.drop 1 <+: t := ((pre_cons_iff p hp a t).mp hB1).2
          have hhead : p.head? = some a := ((pre_cons_iff p hp a t).mp hB1).1
          have hlen1 : p.length - 1 ≤ t.length := by
            have := hp1t.length_le
            simp only [List.length_drop] at this
            omega
          have hnoP1 : ∀ i, i < p.length - 1 → ¬ (w ++ p) <+: t.drop i := by
            intro i hi hco
            have hpi : (p.drop 1).drop i <+: t.drop i := drop_pre_of_pre _ t i hp1t
            rw [List.drop_drop] at hpi
            have hl : (p.drop (1 + i)).length ≤ (w ++ p).length := by
              simp [List.length_drop, List.length_append]
              omega
            have hco2 := List.prefix_of_prefix_length_le hpi hco hl
            exact c7 (1 + i) (by omega) (by omega) hco2
          rw [py_replace_skip (w ++ p) (w ++ r) hP1 (p.length - 1) t hlen1 hnoP1]
          have htk : t.take (p.length - 1) = p.drop 1 := by
            have h1 := List.prefix_iff_eq_take.mp hp1t
            simp only [List.length_drop] at h1
            exact h1.symm
          rw [htk]
          have hpre2 : p <+: a :: (p.drop 1 ++
              py_replace (t.drop (p.length - 1)) (w ++ p) (w ++ r)) := by
            rw [pre_cons_iff p hp]
            exact ⟨hhead, List.prefix_append _ _⟩
          rw [py_replace_pos _ p r hp hpre2]
          have hdr : (a :: (p.drop 1 ++
              py_replace (t.drop (p.length - 1)) (w ++ p) (w ++ r))).drop p.length
              = py_replace (t.drop (p.length - 1)) (w ++ p) (w ++ r) := by
            rw [show p.length = (p.length - 1) + 1 by omega, List.drop_succ_cons]
            rw [show p.length - 1 + 1 - 1 = p.length - 1 by omega]
            exact List.drop_left' (by simp)
          rw [hdr]
          rw [ih (t.drop (p.length - 1)) (by
            simp only [List.length_drop]
            simp at hs
            omega)]
          rw [py_replace_pos (a :: t) p r hp hB1]
          have hdr2 : (a :: t).drop p.length = t.drop (p.length - 1) := by
            rw [show p.length = (p.length - 1) + 1 by omega, List.drop_succ_cons]
            rw [show p.length - 1 + 1 - 1 = p.length - 1 by omega]
          rw [hdr2]
        · have hnp2 : ¬ p <+: a :: py_replace t (w ++ p) (w ++ r) := by
            intro hc
            rw [pre_cons_iff p hp] at hc
            have hdt := q_suffix_pre_replace (w ++ p) (w ++ r) p hP1
              (fun j hj hjl => c6 j hjl hj) t.length t le_rfl 1 (by omega) hc.2
            apply hB1
            rw [pre_cons_iff p hp]
            exact ⟨hc.1, hdt⟩
          rw [py_replace_neg a _ p r hnp2]
          rw [py_replace_neg a t p r hB1]
          rw [ih t (by simp at hs; omega)]

/-- Decidable side conditions for the await-rule redundancy. -/
def await_ok (w p r : List Char) : Prop :=
  p ≠ [] ∧ ¬ p <:+: w ∧ (∀ i, i < w.length → ¬ (w.drop i <+: p)) ∧ ¬ p <:+: r ∧
  (∀ i, i < r.length → ¬ (r.drop i <+: p)) ∧
  (∀ j, j < p.length → 0 < j → ¬ (p.drop j <+: w ++ r) ∧ ¬ ((w ++ r) <+: p.drop j)) ∧
  (∀ j, j < p.length → 0 < j → ¬ (p.drop j <+: w ++ p))

instance await_ok_decidable (w p r : List Char) : Decidable (await_ok w p r) :=
  inferInstanceAs (Decidable (p ≠ [] ∧ ¬ p <:+: w ∧
    (∀ i, i < w.length → ¬ (w.drop i <+: p)) ∧ ¬ p <:+: r ∧
    (∀ i, i < r.length → ¬ (r.drop i <+: p)) ∧
    (∀ j, j < p.length → 0 < j → ¬ (p.drop j <+: w ++ r) ∧ ¬ ((w ++ r) <+: p.drop j)) ∧
    (∀ j, j < p.length → 0 < j → ¬ (p.drop j <+: w ++ p))))

theorem double_replace (w p r s : List Char) (h : await_ok w p r) :
    py_replace (py_replace s (w ++ p) (w ++ r)) p r = py_replace s p r := by
  obtain ⟨h1, h2, h3, h4, h5, h6, h7⟩ := h
  exact double_replace_aux w p r h1 h2 h3 h4 h5 h6 h7 s.length s le_rfl

/-- Claim C10: each await-prefixed rule is redundant: applying
`('await page.X', 'await productPage.X')` and then `(' page.X', ' productPage.X')`
gives the same text as applying only the space rule; structurally the await
rule is the space rule with `"await"` prepended on both sides. -/
theorem c10_await_rules_redundant :
    ∀ i, i < 9 → ∀ s : List Char,
      (bot_replacements.getD i ([], [])).1 =
          "await".toList ++ (bot_replacements.getD (i + 9) ([], [])).1 ∧
      (bot_replacements.getD i ([], [])).2 =
          "await".toList ++ (bot_replacements.getD (i + 9) ([], [])).2 ∧
      py_replace (py_replace s (bot_replacements.getD i ([], [])).1
          (bot_replacements.getD i ([], [])).2)
        (bot_replacements.getD (i + 9) ([], [])).1
        (bot_replacements.getD (i + 9) ([], [])).2 =
      py_replace s (bot_replacements.getD (i + 9) ([], [])).1
        (bot_replacements.getD (i + 9) ([], [])).2 := by
  intro i hi s
  interval_cases i
  · refine ⟨by decide, by decide, ?_⟩
    show py_replace (py_replace s "await page.evaluate".toList "await productPage.evaluate".toList)
        " page.evaluate".toList " productPage.evaluate".toList =
      py_replace s " page.evaluate".toList " productPage.evaluate".toList
    rw [show "await page.evaluate".toList = "await".toList ++ " page.evaluate".toList by decide,
      show "await productPage.evaluate".toList = "await".toList ++ " productPage.evaluate".toList by decide]
    exact double_replace "await".toList " page.evaluate".toList " productPage.evaluate".toList s (by decide)
  · refine ⟨by decide, by decide, ?_⟩
    show py_replace (py_replace s "await page.goto".toList "await productPage.goto".toList)
        " page.goto".toList " productPage.goto".toList =
      py_replace s " page.goto".toList " productPage.goto".toList
    rw [show "await page.goto".toList = "await".toList ++ " page.goto".toList by decide,
      show "await productPage.goto".toList = "await".toList ++ " productPage.goto".toList by decide]
    exact double_replace "await".toList " page.goto".toList " productPage.goto".toList s (by decide)
  · refine ⟨by decide, by decide, ?_⟩
    show py_replace (py_replace s "await page.screenshot".toList "await productPage.screenshot".toList)
        " page.screenshot".toList " productPage.screenshot".toList =
      py_replace s " page.screenshot".toList " productPage.screenshot".toList
    rw [show "await page.screenshot".toList = "await".toList ++ " page.screenshot".toList by decide,
      show "await productPage.screenshot".toList = "await".toList ++ " productPage.screenshot".toList by decide]
    exact double_replace "await".toList " page.screenshot".toList " productPage.screenshot".toList s (by decide)
  · refine ⟨by decide, by decide, ?_⟩
    show py_replace (py_replace s "await page.waitForSelector".toList "await productPage.waitForSelector".toList)
        " page.waitForSelector".toList " productPage.waitForSelector".toList =
      py_replace s " page.waitForSelector".toList " productPage.waitForSelector".toList
    rw [show "await page.waitForSelector".toList = "await".toList ++ " page.waitForSelector".toList by decide,
      show "await productPage.waitForSelector".toList = "await".toList ++ " productPage.waitForSelector".toList by decide]
    exact double_replace "await".toList " page.waitForSelector".toList " productPage.waitForSelector".toList s (by decide)
  · refine ⟨by decide, by decide, ?_⟩
    show py_replace (py_replace s "await page.waitForFunction".toList "await productPage.waitForFunction".toList)
        " page.waitForFunction".toList " productPage.waitForFunction".toList =
      py_replace s " page.waitForFunction".toList " productPage.waitForFunction".toList
    rw [show "await page.waitForFunction".toList = "await".toList ++ " page.waitForFunction".toList by decide,
      show "await productPage.waitForFunction".toList = "await".toList ++ " productPage.waitForFunction".toList by decide]
    exact double_replace "await".toList " page.waitForFunction".toList " productPage.waitForFunction".toList s (by decide)
  · refine ⟨by decide, by decide, ?_⟩
    show py_replace (py_replace s "await page.keyboard".toList "await productPage.keyboard".toList)
        " page.keyboard".toList " productPage.keyboard".toList =
      py_replace s " page.keyboard".toList " productPage.keyboard".toList
    rw [show "await page.keyboard".toList = "await".toList ++ " page.keyboard".toList by decide,
      show "await productPage.keyboard".toList = "await".toList ++ " productPage.keyboard".toList by decide]
    exact double_replace "await".toList " page.keyboard".toList " productPage.keyboard".toList s (by decide)
  · refine ⟨by decide, by decide, ?_⟩
    show py_replace (py_replace s "await page.type".toList "await productPage.type".toList)
        " page.type".toList " productPage.type".toList =
      py_replace s " page.type".toList " productPage.type".toList
    rw [show "await page.type".toList = "await".toList ++ " page.type".toList by decide,
      show "await productPage.type".toList = "await".toList ++ " productPage.type".toList by decide]
    exact double_replace "await".toList " page.type".toList " productPage.type".toList s (by decide)
  · refine ⟨by decide, by decide, ?_⟩
    show py_replace (py_replace s "await page.click".toList "await productPage.click".toList)
        " page.click".toList " productPage.click".toList =
      py_replace s " page.click".toList " productPage.click".toList
    rw [show "await page.click".toList = "await".toList ++ " page.click".toList by decide,
      show "await productPage.click".toList = "await".toList ++ " productPage.click".toList by decide]
    exact double_replace "await".toList " page.click".toList " productPage.click".toList s (by decide)
  · refine ⟨by decide, by decide, ?_⟩
    show py_replace (py_replace s "await page.evaluateHandle".toList "await productPage.evaluateHandle".toList)
        " page.evaluateHandle".toList " productPage.evaluateHandle".toList =
      py_replace s " page.evaluateHandle".toList " productPage.evaluateHandle".toList
    rw [show "await page.evaluateHandle".toList = "await".toList ++ " page.evaluateHandle".toList by decide,
      show "await productPage.evaluateHandle".toList = "await".toList ++ " productPage.evaluateHandle".toList by decide]
    exact double_replace "await".toList " page.evaluateHandle".toList " productPage.evaluateHandle".toList s (by decide)

theorem c10_witness :
    (bot_replacements.getD 0 ([], [])).1 =
        "await".toList ++ (bot_replacements.getD (0 + 9) ([], [])).1 ∧
    (bot_replacements.getD 0 ([], [])).2 =
        "await".toList ++ (bot_replacements.getD (0 + 9) ([], [])).2 ∧
    py_replace (py_replace "x await page.evaluate(1);".toList
        (bot_replacements.getD 0 ([], [])).1 (bot_replacements.getD 0 ([], [])).2)
      (bot_replacements.getD (0 + 9) ([], [])).1 (bot_replacements.getD (0 + 9) ([], [])).2 =
    py_replace "x await page.evaluate(1);".toList
      (bot_replacements.getD (0 + 9) ([], [])).1 (bot_replacements.getD (0 + 9) ([], [])).2 :=
  c10_await_rules_redundant 0 (by omega) "x await page.evaluate(1);".toList

/-- Claim C9 fails as stated: the program's extraction slices from the start
marker's own index, so the rewritten region text is
`"HEAD\nawait productPage.click(x);\n"`, not
`"\nawait productPage.click(x);\n"` as the scenario asserts. -/
theorem c9_counterexample :
    ¬ (py_replace (("HEAD\nawait page.click(x);\nTAIL".toList.take
          (py_find_from "HEAD\nawait page.click(x);\nTAIL".toList "TAIL".toList
            (py_find "HEAD\nawait page.click(x);\nTAIL".toList "HEAD".toList)).toNat).drop
          (py_find "HEAD\nawait page.click(x);\nTAIL".toList "HEAD".toList).toNat)
        "page.click".toList "productPage.click".toList =
      "\nawait productPage.click(x);\n".toList) := by
  decide

/-- Claim C9, amended: on document `"HEAD\nawait page.click(x);\nTAIL"` with
markers `"HEAD"`/`"TAIL"`, the locator returns offsets 0 and 26, the
extracted region includes the leading start marker, the rule
`("page.click", "productPage.click")` turns it into
`"HEAD\nawait productPage.click(x);\n"`, the reassembled output is
`"HEAD\nawait productPage.click(x);\nTAIL"`, and feeding that output's
region (offsets 0 and 33) through the inverse rule reproduces the original
region text exactly. -/
theorem c9_scenario_amended :
    py_find "HEAD\nawait page.click(x);\nTAIL".toList "HEAD".toList = 0 ∧
    py_find_from "HEAD\nawait page.click(x);\nTAIL".toList "TAIL".toList 0 = 26 ∧
    py_replace (("HEAD\nawait page.click(x);\nTAIL".toList.take 26).drop 0)
        "page.click".toList "productPage.click".toList =
      "HEAD\nawait productPage.click(x);\n".toList ∧
    reassemble "HEAD\nawait page.click(x);\nTAIL".toList 0 26
        (py_replace (("HEAD\nawait page.click(x);\nTAIL".toList.take 26).drop 0)
          "page.click".toList "productPage.click".toList) =
      "HEAD\nawait productPage.click(x);\nTAIL".toList ∧
    py_find_from "HEAD\nawait productPage.click(x);\nTAIL".toList "TAIL".toList 0 = 33 ∧
    py_replace (("HEAD\nawait productPage.click(x);\nTAIL".toList.take 33).drop 0)
        "productPage.click".toList "page.click".toList =
      ("HEAD\nawait page.click(x);\nTAIL".toList.take 26).drop 0 := by
  decide

/-! Splice lemmas: when a pattern cannot straddle a junction, absence on both
sides gives absence in the concatenation. -/

theorem infix_append_block (q a b m : List Char) (hqa : ¬ q <:+: a) (hqb : ¬ q <:+: b)
    (hmb : m <+: b)
    (hq1 : ∀ j, j < q.length → 0 < j →
      (q.drop j).length ≤ m.length ∧ ¬ (q.drop j <+: m)) :
    ¬ q <:+: a ++ b := by
  intro hinf
  rw [infix_iff_occ] at hinf
  obtain ⟨i, hi⟩ := hinf
  rw [occ_at] at hi
  rcases Nat.lt_or_ge i a.length with hia | hia
  · rw [List.drop_append_of_le_length (by omega)] at hi
    rcases Nat.lt_or_ge (a.drop i).length q.length with hl | hl
    · have hsplit := pre_append_long _ _ _ hi (by omega)
      have hjpos : 0 < (a.drop i).length := by
        rw [List.length_drop]
        omega
      have hcond := hq1 (a.drop i).length hl hjpos
      exact hcond.2 (List.prefix_of_prefix_length_le hsplit.2 hmb hcond.1)
    · exact hqa ((pre_append_short _ _ _ hi hl).isInfix.trans (List.drop_suffix i a).isInfix)
  · have hdd : (a ++ b).drop i = b.drop (i - a.length) := by
      have hi' : i = a.length + (i - a.length) := by omega
      rw [hi', List.drop_append, Nat.add_sub_cancel_left]
    rw [hdd] at hi
    exact hqb (hi.isInfix.trans (List.drop_suffix _ b).isInfix)

theorem infix_append_block_left (q a b : List Char) (hqa : ¬ q <:+: a) (hqb : ¬ q <:+: b)
    (hblock : ∀ i, i < a.length → ¬ (a.drop i <+: q)) :
    ¬ q <:+: a ++ b := by
  intro hinf
  rw [infix_iff_occ] at hinf
  obtain ⟨i, hi⟩ := hinf
  rw [occ_at] at hi
  rcases Nat.lt_or_ge i a.length with hia | hia
  · rw [List.drop_append_of_le_length (by omega)] at hi
    rcases Nat.le_total q.length (a.drop i).length with hl | hl
    · exact hqa ((pre_append_short _ _ _ hi hl).isInfix.trans (List.drop_suffix i a).isInfix)
    · exact hblock i hia (pre_append_long _ _ _ hi hl).1
  · have hdd : (a ++ b).drop i = b.drop (i - a.length) := by
      have hi' : i = a.length + (i - a.length) := by omega
      rw [hi', List.drop_append, Nat.add_sub_cancel_left]
    rw [hdd] at hi
    exact hqb (hi.isInfix.trans (List.drop_suffix _ b).isInfix)

/-- Absence of a pattern survives the tab-section excision. -/
theorem tab_excision_preserves_absent (q x : List Char)
    (hq1 : ∀ j, j < q.length → 0 < j →
      (q.drop j).length ≤ tab_sec_end.length ∧ ¬ (q.drop j <+: tab_sec_end))
    (h : ¬ q <:+: x) : ¬ q <:+: tab_excision x := by
  simp only [tab_excision]
  by_cases hg : py_find x tab_sec_start ≠ -1 ∧ py_find x tab_sec_end ≠ -1
  · rw [if_pos hg]
    rcases py_find_spec x tab_sec_end with ⟨he, _⟩ | ⟨te, he, hfe⟩
    · exact absurd he hg.2
    · rw [he]
      have hte : ((te : Int)).toNat = te := by simp
      rw [hte]
      apply infix_append_block q _ _ tab_sec_end
      · intro hc
        exact h (hc.trans (List.take_prefix _ x).isInfix)
      · intro hc
        exact h (hc.trans (List.drop_suffix te x).isInfix)
      · exact hfe.1
      · exact hq1
  · rw [if_neg hg]
    exact h

/-- Absence of a pattern survives the wait-section excision. -/
theorem wait_excision_preserves_absent (q x : List Char)
    (hqi : ¬ q <:+: wait_insert)
    (hblocki : ∀ i, i < wait_insert.length → ¬ (wait_insert.drop i <+: q))
    (hq1 : ∀ j, j < q.length → 0 < j →
      (q.drop j).length ≤ wait_insert.length ∧ ¬ (q.drop j <+: wait_insert))
    (h : ¬ q <:+: x) : ¬ q <:+: wait_excision x := by
  simp only [wait_excision]
  by_cases hg : py_find x wait_sec_start ≠ -1 ∧ py_find x wait_sec_end ≠ -1
  · rw [if_pos hg]
    rw [List.append_assoc]
    apply infix_append_block q _ _ wait_insert
    · intro hc
      exact h (hc.trans (List.take_prefix _ x).isInfix)
    · apply infix_append_block_left q wait_insert _ hqi _ hblocki
      intro hc
      exact h ((infix_of_infix_drop q _ _ hc).trans (List.drop_suffix _ x).isInfix)
    · exact List.prefix_append _ _
    · exact hq1
  · rw [if_neg hg]
    exact h

/-- Conditions under which a replacement `r` of some other rule cannot
re-create pattern `q`. -/
def cross_ok (q r : List Char) : Prop :=
  ¬ q <:+: r ∧ (∀ i, i < r.length → ¬ (r.drop i <+: q)) ∧
  (∀ j, j < q.length → 0 < j → ¬ (q.drop j <+: r) ∧ ¬ (r <+: q.drop j))

instance cross_ok_decidable (q r : List Char) : Decidable (cross_ok q r) :=
  inferInstanceAs (Decidable (¬ q <:+: r ∧ (∀ i, i < r.length → ¬ (r.drop i <+: q)) ∧
    (∀ j, j < q.length → 0 < j → ¬ (q.drop j <+: r) ∧ ¬ (r <+: q.drop j))))

theorem apply_rule_absent (q x : List Char) (pr : List Char × List Char)
    (hp : pr.1 ≠ []) (hc : cross_ok q pr.2) (h : ¬ q <:+: x) :
    ¬ q <:+: (apply_rule x pr).1 := by
  by_cases hcnt : 0 < py_count x pr.1
  · have h1 : (apply_rule x pr).1 = py_replace x pr.1 pr.2 := by
      simp only [apply_rule, if_pos hcnt]
    rw [h1]
    exact replace_preserves_absent_aux pr.1 pr.2 q hp hc.1 hc.2.1 hc.2.2 x.length x le_rfl h
  · have h1 : (apply_rule x pr).1 = x := by
      simp only [apply_rule, if_neg hcnt]
    rw [h1]
    exact h

theorem foldl_preserves_absent (q : List Char) :
    ∀ (rules : List (List Char × List Char)) (x : List Char),
      (∀ pr ∈ rules, pr.1 ≠ [] ∧ cross_ok q pr.2) → ¬ q <:+: x →
      ¬ q <:+: apply_replacements rules x := by
  intro rules
  induction rules with
  | nil =>
    intro x _ h
    exact h
  | cons r0 rest ih =>
    intro x hc h
    have hstep : apply_replacements (r0 :: rest) x =
        apply_replacements rest ((apply_rule x r0).1) := by
      simp [apply_replacements]
    rw [hstep]
    exact ih _ (fun pr hpr => hc pr (List.mem_cons_of_mem r0 hpr))
      (apply_rule_absent q x r0 (hc r0 (List.mem_cons_self r0 rest)).1
        (hc r0 (List.mem_cons_self r0 rest)).2 h)

theorem apply_replacements_absent :
    ∀ (rules : List (List Char × List Char)),
      (∀ pr ∈ rules, rule_ok pr.1 pr.2) →
      (∀ pr ∈ rules, ∀ pr2 ∈ rules, cross_ok pr.1 pr2.2) →
      ∀ (x : List Char), ∀ pr ∈ rules, ¬ pr.1 <:+: apply_replacements rules x := by
  intro rules
  induction rules with
  | nil =>
    intro _ _ x pr hpr
    simp at hpr
  | cons r0 rest ih =>
    intro hok hcross x pr hpr
    have hstep : apply_replacements (r0 :: rest) x =
        apply_replacements rest ((apply_rule x r0).1) := by
      simp [apply_replacements]
    rw [hstep]
    rcases List.mem_cons.mp hpr with rfl | hmem
    · have hkill : ¬ pr.1 <:+: (apply_rule x pr).1 := by
        by_cases hcnt : 0 < py_count x pr.1
        · have h1 : (apply_rule x pr).1 = py_replace x pr.1 pr.2 := by
            simp only [apply_rule, if_pos hcnt]
          rw [h1]
          exact replace_kills_pattern_aux pr.1 pr.2
            (hok pr (List.mem_cons_self pr rest)) x.length x le_rfl
        · have h1 : (apply_rule x pr).1 = x := by
            simp only [apply_rule, if_neg hcnt]
          rw [h1]
          exact (py_count_eq_zero_iff x pr.1
            (hok pr (List.mem_cons_self pr rest)).1).mp (by omega)
      exact foldl_preserves_absent pr.1 rest _
        (fun pr2 hpr2 => ⟨(hok pr2 (List.mem_cons_of_mem _ hpr2)).1,
          hcross pr (List.mem_cons_self pr rest) pr2 (List.mem_cons_of_mem _ hpr2)⟩) hkill
    · exact ih (fun pr2 h2 => hok pr2 (List.mem_cons_of_mem _ h2))
        (fun pr2 h2 pr3 h3 => hcross pr2 (List.mem_cons_of_mem _ h2) pr3
          (List.mem_cons_of_mem _ h3))
        _ pr hmem

theorem apply_replacements_id :
    ∀ (rules : List (List Char × List Char)) (x : List Char),
      (∀ pr ∈ rules, py_count x pr.1 = 0) → apply_replacements rules x = x := by
  intro rules
  induction rules with
  | nil =>
    intro x _
    rfl
  | cons r0 rest ih =>
    intro x h
    have hstep : apply_replacements (r0 :: rest) x =
        apply_replacements rest ((apply_rule x r0).1) := by
      simp [apply_replacements]
    have hz : py_count x r0.1 = 0 := h r0 (List.mem_cons_self r0 rest)
    have hneg : ¬ 0 < py_count x r0.1 := by omega
    have h0 : (apply_rule x r0).1 = x := by
      simp only [apply_rule, if_neg hneg]
    rw [hstep, h0]
    exact ih x (fun pr hpr => h pr (List.mem_cons_of_mem r0 hpr))

theorem tab_excision_eq_of_missing (f : List Char)
    (h : py_find f tab_sec_start = -1 ∨ py_find f tab_sec_end = -1) :
    tab_excision f = f := by
  simp only [tab_excision]
  rw [if_neg (by
    intro hc
    rcases h with h | h
    · exact hc.1 h
    · exact hc.2 h)]

theorem wait_excision_eq_of_missing (f : List Char)
    (h : py_find f wait_sec_start = -1 ∨ py_find f wait_sec_end = -1) :
    wait_excision f = f := by
  simp only [wait_excision]
  rw [if_neg (by
    intro hc
    rcases h with h | h
    · exact hc.1 h
    · exact hc.2 h)]

/-- Decidable side conditions of the idempotence argument, checked over the
whole table of `fix-single-tab.py`. -/
theorem single_cross : ∀ pr ∈ single_replacements, ∀ pr2 ∈ single_replacements,
    cross_ok pr.1 pr2.2 := by
  decide

theorem single_tab_conds : ∀ pr ∈ single_replacements, ∀ j, j < pr.1.length → 0 < j →
    (pr.1.drop j).length ≤ tab_sec_end.length ∧ ¬ (pr.1.drop j <+: tab_sec_end) := by
  decide

theorem single_wait_conds : ∀ pr ∈ single_replacements,
    ¬ pr.1 <:+: wait_insert ∧
    (∀ i, i < wait_insert.length → ¬ (wait_insert.drop i <+: pr.1)) ∧
    (∀ j, j < pr.1.length → 0 < j →
      (pr.1.drop j).length ≤ wait_insert.length ∧ ¬ (pr.1.drop j <+: wait_insert)) := by
  decide

theorem single_rules_basic : ∀ pr ∈ single_replacements, rule_ok pr.1 pr.2 :=
  fun pr h => all_rules_ok pr (List.mem_append_right _ h)

/-- No substitution pattern of `fix-single-tab.py` survives one run of the
region pipeline, whatever the region text was. -/
theorem single_pipeline_absent :
    ∀ f : List Char, ∀ pr ∈ single_replacements, ¬ pr.1 <:+: single_pipeline f := by
  intro f pr hpr
  rw [single_pipeline]
  apply wait_excision_preserves_absent pr.1 _ (single_wait_conds pr hpr).1
    (single_wait_conds pr hpr).2.1 (single_wait_conds pr hpr).2.2
  apply tab_excision_preserves_absent pr.1 _ (single_tab_conds pr hpr)
  exact apply_replacements_absent single_replacements single_rules_basic single_cross f pr hpr

/-- Claim C6 fails as stated: a region in which the excision's end marker
occurs before its start marker is changed again (indeed grown) by a second
run of the pipeline, because both span markers are still present in the
first run's output. -/
theorem c6_counterexample :
    ¬ (single_pipeline (single_pipeline (tab_sec_end ++ tab_sec_start)) =
        single_pipeline (tab_sec_end ++ tab_sec_start)) := by
  decide

/-- Claim C6, amended: every substitution pattern has zero occurrences in
the pipeline's output (so on a second run every rule is a no-op and no step
throws), and the second run returns the output byte-for-byte unchanged
provided the output does not contain both span markers of the tab excision
nor both span markers of the wait excision.  (Without that proviso the
claim is false: see the counterexample, where both tab markers survive the
first run.) -/
theorem c6_pipeline_idempotence_amended :
    ∀ f : List Char,
      (∀ pr ∈ single_replacements, py_count (single_pipeline f) pr.1 = 0) ∧
      ((py_find (single_pipeline f) tab_sec_start = -1 ∨
          py_find (single_pipeline f) tab_sec_end = -1) →
        (py_find (single_pipeline f) wait_sec_start = -1 ∨
          py_find (single_pipeline f) wait_sec_end = -1) →
        single_pipeline (single_pipeline f) = single_pipeline f) := by
  intro f
  have hcounts : ∀ pr ∈ single_replacements, py_count (single_pipeline f) pr.1 = 0 := by
    intro pr hpr
    rw [py_count_eq_zero_iff _ _ (single_rules_basic pr hpr).1]
    exact single_pipeline_absent f pr hpr
  refine ⟨hcounts, ?_⟩
  intro h1 h2
  have hstep : single_pipeline (single_pipeline f) =
      wait_excision (tab_excision (apply_replacements single_replacements
        (single_pipeline f))) := rfl
  rw [hstep, apply_replacements_id single_replacements _ hcounts,
    tab_excision_eq_of_missing _ h1, wait_excision_eq_of_missing _ h2]

theorem c6_witness :
    (py_count (single_pipeline "x".toList) "productPage.evaluate".toList = 0) ∧
    single_pipeline (single_pipeline "x".toList) = single_pipeline "x".toList := by
  have h := c6_pipeline_idempotence_amended "x".toList
  exact ⟨h.1 ("productPage.evaluate".toList, "page.evaluate".toList) (by decide),
    h.2 (by decide) (by decide)⟩
